import Mathlib

/-!
Verification of the email-agent core of `multi-client-langgraph`
(`src/src/email_agent.py`): the triage router, the tool-calling response
loop (`llm_call`, `tool_node`, `should_continue`) and the overall
workflow wiring of `setup_email_assistant`.

The language model and the MCP tool provider are external collaborators;
they appear as function parameters.  The graph framework's semantics are
embedded directly: the `messages` channel appends the `messages` lists
returned by nodes, and a state update raised past an exception is
discarded.  The response loop, which the source builds as a graph cycle
`agent -> (should_continue) -> tools -> agent`, is embedded as a
fuel-indexed recursion: fuel exhaustion is a modelling artifact (the
source loop has no iteration bound), reported as a distinct outcome.
-/

namespace EmailAgent

/-- Roles of conversation turns (`system`/`user`/`assistant`/`tool`). -/
inductive Role where
  | system
  | user
  | assistant
  | tool
deriving DecidableEq, Repr

/-- A model-issued tool call: `{name, args, id}` as carried on an
assistant message.  Arguments are kept as an opaque payload since the
core only forwards them to the tool provider. -/
structure ToolCall where
  name : String
  args : String
  id : String
deriving DecidableEq, Repr

/-- One entry of the `messages` channel.  Assistant turns may carry tool
calls; tool turns carry the `tool_call_id` they answer. -/
structure Turn where
  role : Role
  content : String
  tool_calls : List ToolCall := []
  tool_call_id : Option String := none
deriving DecidableEq, Repr

/-- Count of turns with a given role in a message list. -/
def countRole (r : Role) (ts : List Turn) : Nat :=
  (ts.filter (fun t => t.role = r)).length

/-- Parsed email input: `(author, to, subject, email_thread)` as produced
by `parse_email` from the raw `email_input` mapping (`to` is spelled
`recipient` here). -/
structure EmailInput where
  author : String
  recipient : String
  subject : String
  email_thread : String
deriving DecidableEq, Repr

/-- Structured classifier output (`RouterSchema`).  The source constrains
`classification` to a three-value literal type but the router code still
defends against other values with an explicit `raise`; the field is a
plain string so that defence is part of the model. -/
structure RouterResult where
  reasoning : String
  classification : String
deriving DecidableEq, Repr

/-- Graph state (`State`): the email input, the optional classification
decision and the `messages` channel. -/
structure AgentState where
  email_input : EmailInput
  classification_decision : Option String := none
  messages : List Turn := []
deriving DecidableEq, Repr

/-- The assistant message returned by one invocation of the tool-bound
model: free-text content plus the tool calls it selected. -/
structure AIMessage where
  content : String
  tool_calls : List ToolCall
deriving DecidableEq, Repr

/-- A scripted model stub: iteration index and current message history to
the assistant message.  The source model is a function of the history
alone (with a system prompt prepended inside `llm_call`); the index makes
scripted stubs directly expressible and any history-only model embeds by
ignoring the index. -/
abbrev ModelStub := Nat → List Turn → AIMessage

/-- The registered tools, `tools_by_name`: a partial map from tool name
to its (textual) implementation. -/
abbrev ToolMap := String → Option (String → String)

/-- Fatal errors of the core, each carrying the `messages` of the
conversation at the instant it surfaces (no partial rollback: a node's
update is discarded when the node raises). -/
inductive AgentError where
  | noActionSelected (messages : List Turn)
  | toolDispatchFailure (toolName : String) (messages : List Turn)
  | invalidClassification (value : String) (messages : List Turn)
deriving DecidableEq, Repr

/-- Outcome of the response loop.  `dispatches` counts tool invocations
performed; `outOfFuel` is the modelling artifact for a run still going
after `fuel` iterations. -/
inductive LoopResult where
  | done (messages : List Turn) (dispatches : Nat)
  | outOfFuel (messages : List Turn) (dispatches : Nat)
deriving DecidableEq, Repr

/-- The agent node (`llm_call`): invoke the model and append its reply as
an assistant turn. -/
def assistantTurn (m : AIMessage) : Turn :=
  { role := .assistant, content := m.content, tool_calls := m.tool_calls,
    tool_call_id := none }

/-- The body of `tool_node`'s loop: look up each tool call by name in
`tools_by_name`, invoke it, and produce the tool-result turn
`{role: tool, content: observation, tool_call_id: id}`, in list order.
A missing name raises (the `KeyError` of `tools_by_name[...]`), reported
with the tool name; the turns already built are discarded with the
update. -/
def dispatchCalls (tools : ToolMap) : List ToolCall → Except String (List Turn)
  | [] => .ok []
  | c :: rest =>
    match tools c.name with
    | none => .error c.name
    | some f =>
      match dispatchCalls tools rest with
      | .error e => .error e
      | .ok ts =>
        .ok ({ role := .tool, content := f c.args, tool_calls := [],
               tool_call_id := some c.id } :: ts)

/-- `tool_node`: dispatch the tool calls of the last message and return
the tool-result turns to append.  The graph only schedules this node
after an agent turn, so the history is never empty there; an empty
history contributes no calls. -/
def tool_node (tools : ToolMap) (messages : List Turn) :
    Except String (List Turn) :=
  dispatchCalls tools ((messages.getLast?.map Turn.tool_calls).getD [])

/-- Conditional-edge targets of `should_continue`. -/
inductive Route where
  | action
  | done
deriving DecidableEq, Repr

/-- `should_continue`: inspect the last message's tool calls.  The source
`for` loop returns on its first iteration, so only the first tool call is
examined: `Done` ends the loop, anything else routes to `Action`.  With
no tool calls the function falls through and returns `None`, which the
conditional edge mapping cannot route. -/
def should_continue (messages : List Turn) : Option Route :=
  match messages.getLast? with
  | none => none
  | some last =>
    match last.tool_calls with
    | [] => none
    | c :: _ => if c.name = "Done" then some .done else some .action

/-- The response-agent graph `agent -> (should_continue) -> tools ->
agent`, unfolded: each iteration appends the model's assistant turn,
routes on `should_continue`, and on `Action` appends the tool-result
turns and repeats.  `i` is the iteration index fed to the scripted model,
`d` the running count of tool dispatches. -/
def runLoop (model : ModelStub) (tools : ToolMap) :
    Nat → Nat → Nat → List Turn → Except AgentError LoopResult
  | 0, _, d, messages => .ok (.outOfFuel messages d)
  | fuel + 1, i, d, messages =>
    let msgs1 := messages ++ [assistantTurn (model i messages)]
    match should_continue msgs1 with
    | none => .error (.noActionSelected msgs1)
    | some .done => .ok (.done msgs1 d)
    | some .action =>
      match tool_node tools msgs1 with
      | .error name => .error (.toolDispatchFailure name msgs1)
      | .ok results =>
        runLoop model tools fuel (i + 1) (d + results.length) (msgs1 ++ results)

/-- The messages of the conversation as left by a loop outcome,
including the no-rollback state carried by fatal errors. -/
def resultMessages : Except AgentError LoopResult → List Turn
  | .ok (.done m _) => m
  | .ok (.outOfFuel m _) => m
  | .error (.noActionSelected m) => m
  | .error (.toolDispatchFailure _ m) => m
  | .error (.invalidClassification _ m) => m

/-- Targets of the triage router's `Command(goto=...)`. -/
inductive Goto where
  | response_agent
  | terminal
deriving DecidableEq, Repr

/-- `triage_router`: run the structured-output router on the email, then
branch on the classification.  `respond` records the decision and appends
the single user turn `"Respond to the email: " ++ rendered email`, going
to the response agent; `ignore`/`notify` record the decision only and end;
anything else raises (`ValueError`), leaving the state unchanged.
`classify` stands for the router model invocation, `renderEmail` for
`format_email_markdown` (both external to the routing logic). -/
def triage_router (classify : EmailInput → RouterResult)
    (renderEmail : EmailInput → String) (state : AgentState) :
    Except AgentError (Goto × AgentState) :=
  let result := classify state.email_input
  let classification := result.classification
  if classification = "respond" then
    .ok (.response_agent,
      { state with
        classification_decision := some result.classification,
        messages := state.messages ++
          [{ role := .user,
             content := "Respond to the email: " ++ renderEmail state.email_input,
             tool_calls := [], tool_call_id := none }] })
  else if result.classification = "ignore" then
    .ok (.terminal, { state with classification_decision := some result.classification })
  else if result.classification = "notify" then
    .ok (.terminal, { state with classification_decision := some result.classification })
  else
    .error (.invalidClassification result.classification state.messages)

/-- Outcome of the overall workflow: the final state plus the number of
tool dispatches performed, or `stillRunning` when the response loop's
fuel ran out (modelling artifact). -/
inductive RunOutcome where
  | finished (state : AgentState) (dispatches : Nat)
  | stillRunning (state : AgentState) (dispatches : Nat)
deriving DecidableEq, Repr

/-- The compiled overall workflow (`setup_email_assistant`): start at the
triage router; on `goto = response_agent` run the response loop on the
updated messages, otherwise terminate with the triage state. -/
def email_assistant (classify : EmailInput → RouterResult)
    (renderEmail : EmailInput → String) (model : ModelStub) (tools : ToolMap)
    (fuel : Nat) (email : EmailInput) : Except AgentError RunOutcome :=
  let state0 : AgentState := { email_input := email }
  match triage_router classify renderEmail state0 with
  | .error e => .error e
  | .ok (.terminal, s) => .ok (.finished s 0)
  | .ok (.response_agent, s) =>
    match runLoop model tools fuel 0 0 s.messages with
    | .error e => .error e
    | .ok (.done msgs d) => .ok (.finished { s with messages := msgs } d)
    | .ok (.outOfFuel msgs d) => .ok (.stillRunning { s with messages := msgs } d)

/-! ### Helper lemmas -/

theorem countRole_append (r : Role) (xs ys : List Turn) :
    countRole r (xs ++ ys) = countRole r xs + countRole r ys := by
  simp [countRole, List.filter_append]

theorem countRole_assistantTurn_tool (m : AIMessage) :
    countRole .tool [assistantTurn m] = 0 := by
  simp [countRole, assistantTurn]

/-- Every successful `triage_router` outcome records the classifier's
decision, keeps the email, and only appends to `messages`. -/
theorem triage_router_ok (classify : EmailInput → RouterResult)
    (renderEmail : EmailInput → String) (state : AgentState) (g : Goto)
    (s' : AgentState)
    (h : triage_router classify renderEmail state = .ok (g, s')) :
    s'.classification_decision = some (classify state.email_input).classification ∧
    s'.email_input = state.email_input ∧
    ∃ app, s'.messages = state.messages ++ app := by
  simp only [triage_router] at h
  split_ifs at h with h1 h2 h3 <;>
    simp only [Except.ok.injEq, Prod.mk.injEq] at h
  · obtain ⟨-, hs⟩ := h
    subst hs
    exact ⟨rfl, rfl, _, rfl⟩
  · obtain ⟨-, hs⟩ := h
    subst hs
    exact ⟨rfl, rfl, [], (List.append_nil _).symm⟩
  · obtain ⟨-, hs⟩ := h
    subst hs
    exact ⟨rfl, rfl, [], (List.append_nil _).symm⟩

/-! ### Claims about the triage stage -/

/-- Claim C2: when the classifier returns `ignore` or `notify`, the
triage router records exactly that classification, terminates with
`messages` unchanged, and the overall workflow finishes with zero tool
dispatches and a result independent of the response-loop model, tools
and fuel — the response loop is never invoked. -/
theorem triage_ignore_notify (classify : EmailInput → RouterResult)
    (renderEmail : EmailInput → String) (state : AgentState)
    (hcat : (classify state.email_input).classification = "ignore" ∨
            (classify state.email_input).classification = "notify") :
    triage_router classify renderEmail state =
      .ok (.terminal, { state with
        classification_decision := some (classify state.email_input).classification }) ∧
    ∀ model tools fuel,
      email_assistant classify renderEmail model tools fuel state.email_input =
        .ok (.finished
          { email_input := state.email_input,
            classification_decision := some (classify state.email_input).classification,
            messages := [] } 0) := by
  rcases hcat with h | h <;>
    refine ⟨?_, fun model tools fuel => ?_⟩ <;>
    simp [triage_router, email_assistant, h]

/-- Witness for C2 at a concrete classifier stub returning `ignore`. -/
theorem triage_ignore_notify_witness :
    triage_router (fun _ => ⟨"why", "ignore"⟩) (fun _ => "MD")
        { email_input := ⟨"a@x.com", "b@x.com", "Meet?", "body"⟩ } =
      .ok (.terminal, { email_input := ⟨"a@x.com", "b@x.com", "Meet?", "body"⟩,
                        classification_decision := some "ignore",
                        messages := [] }) := by
  have h := triage_ignore_notify (fun _ => ⟨"why", "ignore"⟩) (fun _ => "MD")
    { email_input := ⟨"a@x.com", "b@x.com", "Meet?", "body"⟩ } (Or.inl rfl)
  exact h.1

/-- Claim C3: when the classifier returns `respond`, the triage router
records the classification and appends exactly one user turn whose
content is `"Respond to the email: "` followed by the rendered email,
then routes to the response agent. -/
theorem triage_respond (classify : EmailInput → RouterResult)
    (renderEmail : EmailInput → String) (state : AgentState)
    (hcat : (classify state.email_input).classification = "respond") :
    triage_router classify renderEmail state =
      .ok (.response_agent, { state with
        classification_decision := some (classify state.email_input).classification,
        messages := state.messages ++
          [{ role := .user,
             content := "Respond to the email: " ++ renderEmail state.email_input,
             tool_calls := [], tool_call_id := none }] }) := by
  simp [triage_router, hcat]

/-- Witness for C3 at a concrete classifier stub returning `respond`. -/
theorem triage_respond_witness :
    triage_router (fun _ => ⟨"why", "respond"⟩) (fun _ => "MD")
        { email_input := ⟨"a@x.com", "b@x.com", "Meet?", "body"⟩ } =
      .ok (.response_agent,
        { email_input := ⟨"a@x.com", "b@x.com", "Meet?", "body"⟩,
          classification_decision := some "respond",
          messages := [{ role := .user, content := "Respond to the email: MD",
                         tool_calls := [], tool_call_id := none }] }) := by
  have h := triage_respond (fun _ => ⟨"why", "respond"⟩) (fun _ => "MD")
    { email_input := ⟨"a@x.com", "b@x.com", "Meet?", "body"⟩ } rfl
  simpa using h

/-- Claim C5: a classification outside `{ignore, notify, respond}` makes
the triage router raise `InvalidClassification` carrying the offending
value, with `messages` left exactly as they were. -/
theorem triage_invalid_classification (classify : EmailInput → RouterResult)
    (renderEmail : EmailInput → String) (state : AgentState)
    (hcat : (classify state.email_input).classification ∉
      (["ignore", "notify", "respond"] : List String)) :
    triage_router classify renderEmail state =
      .error (.invalidClassification
        (classify state.email_input).classification state.messages) := by
  simp only [List.mem_cons, List.mem_singleton, not_or] at hcat
  obtain ⟨h1, h2, h3⟩ := hcat
  simp [triage_router, h1, h2, h3]

/-- Witness for C5 at the classifier value `"spam"`. -/
theorem triage_invalid_classification_witness :
    triage_router (fun _ => ⟨"why", "spam"⟩) (fun _ => "MD")
        { email_input := ⟨"a@x.com", "b@x.com", "Meet?", "body"⟩ } =
      .error (.invalidClassification "spam" []) := by
  have h := triage_invalid_classification (fun _ => ⟨"why", "spam"⟩) (fun _ => "MD")
    { email_input := ⟨"a@x.com", "b@x.com", "Meet?", "body"⟩ } (by decide)
  simpa using h

/-! ### One-step lemmas for the response loop -/

theorem countRole_cons (r : Role) (t : Turn) (ts : List Turn) :
    countRole r (t :: ts) = (if t.role = r then 1 else 0) + countRole r ts := by
  simp only [countRole, List.filter_cons]
  by_cases h : t.role = r <;> simp [h, Nat.add_comm]

theorem should_continue_concat (msgs : List Turn) (t : Turn) :
    should_continue (msgs ++ [t]) =
      match t.tool_calls with
      | [] => none
      | c :: _ => if c.name = "Done" then some .done else some .action := by
  simp [should_continue, List.getLast?_concat]

theorem tool_node_concat (tools : ToolMap) (msgs : List Turn) (t : Turn) :
    tool_node tools (msgs ++ [t]) = dispatchCalls tools t.tool_calls := by
  simp [tool_node, List.getLast?_concat]

/-! ### Claims about single loop iterations -/

/-- Claim C4: when the model's assistant turn carries zero tool calls,
the loop halts with `NoActionSelected`; the assistant turn is the only
addition — in particular no tool-result turn is appended. -/
theorem loop_no_action_selected (model : ModelStub) (tools : ToolMap)
    (fuel i d : Nat) (msgs : List Turn)
    (hfuel : 1 ≤ fuel) (hempty : (model i msgs).tool_calls = []) :
    runLoop model tools fuel i d msgs =
      .error (.noActionSelected (msgs ++ [assistantTurn (model i msgs)])) ∧
    countRole .tool (msgs ++ [assistantTurn (model i msgs)]) =
      countRole .tool msgs := by
  obtain ⟨f, rfl⟩ : ∃ f, fuel = f + 1 := ⟨fuel - 1, by omega⟩
  refine ⟨?_, ?_⟩
  · simp only [runLoop]
    rw [should_continue_concat]
    simp [assistantTurn, hempty]
  · simp [countRole_append, countRole_assistantTurn_tool]

/-- Witness for C4 with a model stub producing a call-free turn. -/
theorem loop_no_action_selected_witness :
    runLoop (fun _ _ => ⟨"free text", []⟩) (fun _ => none) 3 0 0 [] =
      .error (.noActionSelected
        [{ role := .assistant, content := "free text",
           tool_calls := [], tool_call_id := none }]) := by
  have h := loop_no_action_selected (fun _ _ => ⟨"free text", []⟩) (fun _ => none)
    3 0 0 [] (by decide) rfl
  simpa [assistantTurn] using h.1

/-- Claim C8: a tool call naming an unregistered tool makes dispatch
fail: at the `dispatchCalls` level a missing name anywhere in the call
list yields a `.error` surfacing an unresolvable tool's name (no silent
skip, no retry), and in the loop a turn whose sole call is unregistered
halts with `ToolDispatchFailure` carrying that name, appending no
tool-result turn. -/
theorem tool_dispatch_failure_surfaced :
    (∀ (tools : ToolMap) (calls : List ToolCall) (c : ToolCall),
       c ∈ calls → tools c.name = none →
       ∃ c', c' ∈ calls ∧ tools c'.name = none ∧
         dispatchCalls tools calls = .error c'.name) ∧
    (∀ (model : ModelStub) (tools : ToolMap) (fuel i d : Nat) (msgs : List Turn)
       (c : ToolCall),
       1 ≤ fuel → (model i msgs).tool_calls = [c] → c.name ≠ "Done" →
       tools c.name = none →
       runLoop model tools fuel i d msgs =
         .error (.toolDispatchFailure c.name
           (msgs ++ [assistantTurn (model i msgs)])) ∧
       countRole .tool (msgs ++ [assistantTurn (model i msgs)]) =
         countRole .tool msgs) := by
  constructor
  · intro tools calls
    induction calls with
    | nil => intro c hc _; simp at hc
    | cons c0 rest ih =>
      intro c hc hmiss
      by_cases h0 : tools c0.name = none
      · exact ⟨c0, List.mem_cons_self c0 rest, h0, by simp [dispatchCalls, h0]⟩
      · obtain ⟨f, hf⟩ := Option.ne_none_iff_exists'.mp h0
        have hcr : c ∈ rest := by
          rcases List.mem_cons.mp hc with h | h
          · subst h; exact absurd hmiss h0
          · exact h
        obtain ⟨c', hc', hmiss', herr⟩ := ih c hcr hmiss
        exact ⟨c', List.mem_cons_of_mem _ hc', hmiss', by
          simp [dispatchCalls, hf, herr]⟩
  · intro model tools fuel i d msgs c hfuel hcalls hname hmiss
    obtain ⟨f, rfl⟩ : ∃ f, fuel = f + 1 := ⟨fuel - 1, by omega⟩
    refine ⟨?_, ?_⟩
    · simp only [runLoop]
      rw [should_continue_concat]
      simp only [assistantTurn, hcalls]
      rw [if_neg hname]
      rw [tool_node_concat]
      simp [dispatchCalls, hmiss, hcalls, assistantTurn]
    · simp [countRole_append, countRole_assistantTurn_tool]

/-- Witness for C8 with an unregistered tool name. -/
theorem tool_dispatch_failure_surfaced_witness :
    dispatchCalls (fun _ => none) [⟨"mystery", "x", "i1"⟩] = .error "mystery" ∧
    runLoop (fun _ _ => ⟨"c", [⟨"mystery", "x", "i1"⟩]⟩) (fun _ => none) 2 0 0 [] =
      .error (.toolDispatchFailure "mystery"
        [{ role := .assistant, content := "c",
           tool_calls := [⟨"mystery", "x", "i1"⟩], tool_call_id := none }]) := by
  constructor
  · obtain ⟨c', hc', -, herr⟩ := tool_dispatch_failure_surfaced.1 (fun _ => none)
      [⟨"mystery", "x", "i1"⟩] ⟨"mystery", "x", "i1"⟩ (List.mem_singleton.mpr rfl) rfl
    rw [herr]
    rcases List.mem_singleton.mp hc' with rfl
    rfl
  · have h := tool_dispatch_failure_surfaced.2 (fun _ _ => ⟨"c", [⟨"mystery", "x", "i1"⟩]⟩)
      (fun _ => none) 2 0 0 [] ⟨"mystery", "x", "i1"⟩ (by decide) rfl (by decide) rfl
    simpa [assistantTurn] using h.1

/-- Claim C10: routing looks only at the first tool call of the last
assistant turn — `Done` first ends the loop with no further dispatch of
that turn's calls (the dispatch counter is unchanged), anything else
routes to tool execution — and a successful `dispatchCalls` produces one
result per call, in list order, paired by id. -/
theorem routing_uses_first_tool_call :
    (∀ (msgs : List Turn) (t : Turn) (c : ToolCall) (rest : List ToolCall),
       msgs.getLast? = some t → t.tool_calls = c :: rest →
       should_continue msgs =
         some (if c.name = "Done" then Route.done else Route.action)) ∧
    (∀ (model : ModelStub) (tools : ToolMap) (fuel i d : Nat) (msgs : List Turn)
       (c : ToolCall) (rest : List ToolCall),
       1 ≤ fuel → (model i msgs).tool_calls = c :: rest → c.name = "Done" →
       runLoop model tools fuel i d msgs =
         .ok (.done (msgs ++ [assistantTurn (model i msgs)]) d)) ∧
    (∀ (tools : ToolMap) (calls : List ToolCall) (results : List Turn),
       dispatchCalls tools calls = .ok results →
       results.map Turn.tool_call_id = calls.map (fun c => some c.id)) := by
  refine ⟨?_, ?_, ?_⟩
  · intro msgs t c rest hlast hcalls
    by_cases h : c.name = "Done" <;> simp [should_continue, hlast, hcalls, h]
  · intro model tools fuel i d msgs c rest hfuel hcalls hdone
    obtain ⟨f, rfl⟩ : ∃ f, fuel = f + 1 := ⟨fuel - 1, by omega⟩
    simp only [runLoop]
    rw [should_continue_concat]
    simp [assistantTurn, hcalls, hdone]
  · intro tools calls
    induction calls with
    | nil =>
      intro results h
      simp only [dispatchCalls, Except.ok.injEq] at h
      subst h
      rfl
    | cons c0 rest ih =>
      intro results h
      simp only [dispatchCalls] at h
      cases h0 : tools c0.name with
      | none => rw [h0] at h; exact absurd h (by simp)
      | some f =>
        rw [h0] at h
        cases hr : dispatchCalls tools rest with
        | error e => rw [hr] at h; exact absurd h (by simp)
        | ok ts =>
          rw [hr] at h
          simp only [Except.ok.injEq] at h
          subst h
          simp [ih ts hr]

/-- Witness for C10: a turn whose later (not first) call is `Done` still
routes to `Action`, a `Done`-first turn ends the loop, and dispatch
pairs results with calls in order. -/
theorem routing_uses_first_tool_call_witness :
    should_continue
        [{ role := .assistant, content := "",
           tool_calls := [⟨"write_email", "a", "i1"⟩, ⟨"Done", "", "i2"⟩],
           tool_call_id := none }] = some .action ∧
    runLoop (fun _ _ => ⟨"", [⟨"Done", "", "i2"⟩, ⟨"write_email", "a", "i1"⟩]⟩)
        (fun n => some (fun a => n ++ a)) 4 0 0 [] =
      .ok (.done [{ role := .assistant, content := "",
                    tool_calls := [⟨"Done", "", "i2"⟩, ⟨"write_email", "a", "i1"⟩],
                    tool_call_id := none }] 0) ∧
    ∀ results, dispatchCalls (fun n => some (fun a => n ++ a))
        [⟨"write_email", "a", "i1"⟩, ⟨"schedule_meeting", "b", "i2"⟩] = .ok results →
      results.map Turn.tool_call_id = [some "i1", some "i2"] := by
  refine ⟨?_, ?_, ?_⟩
  · have h := routing_uses_first_tool_call.1
      [{ role := .assistant, content := "",
         tool_calls := [⟨"write_email", "a", "i1"⟩, ⟨"Done", "", "i2"⟩],
         tool_call_id := none }]
      { role := .assistant, content := "",
        tool_calls := [⟨"write_email", "a", "i1"⟩, ⟨"Done", "", "i2"⟩],
        tool_call_id := none }
      ⟨"write_email", "a", "i1"⟩ [⟨"Done", "", "i2"⟩] rfl rfl
    simpa using h
  · have h := routing_uses_first_tool_call.2.1
      (fun _ _ => ⟨"", [⟨"Done", "", "i2"⟩, ⟨"write_email", "a", "i1"⟩]⟩)
      (fun n => some (fun a => n ++ a)) 4 0 0 []
      ⟨"Done", "", "i2"⟩ [⟨"write_email", "a", "i1"⟩] (by decide) rfl rfl
    simpa [assistantTurn] using h
  · intro results h
    have := routing_uses_first_tool_call.2.2 (fun n => some (fun a => n ++ a))
      [⟨"write_email", "a", "i1"⟩, ⟨"schedule_meeting", "b", "i2"⟩] results h
    simpa using this

/-! ### Scripted runs of the response loop -/

/-- A scripted run that selects a non-`Done` single call for `M`
iterations (indices `k, …, k+M-1`) and a single `Done` call at index
`k+M` terminates after `M+1` assistant turns with exactly `M` dispatches,
`M` tool-result turns, and the `Done` assistant turn last. -/
theorem runLoop_scripted_done (model : ModelStub)
    (toolImpl : String → String → String) (M : Nat) :
    ∀ (k fuel d : Nat) (msgs : List Turn), M + 1 ≤ fuel →
    (∀ i ms, i < M → ∃ c, (model (k + i) ms).tool_calls = [c] ∧ c.name ≠ "Done") →
    (∀ ms, ∃ c, (model (k + M) ms).tool_calls = [c] ∧ c.name = "Done") →
    ∃ app, runLoop model (fun n => some (toolImpl n)) fuel k d msgs =
        .ok (.done (msgs ++ app) (d + M)) ∧
      countRole .assistant app = M + 1 ∧ countRole .tool app = M ∧
      ∃ dturn, app.getLast? = some dturn ∧ dturn.role = .assistant ∧
        ∃ c, dturn.tool_calls = [c] ∧ c.name = "Done" := by
  induction M with
  | zero =>
    intro k fuel d msgs hfuel h1 h2
    obtain ⟨f, rfl⟩ : ∃ f, fuel = f + 1 := ⟨fuel - 1, by omega⟩
    obtain ⟨c, hc, hcname⟩ := h2 msgs
    rw [Nat.add_zero] at hc
    refine ⟨[assistantTurn (model k msgs)], ?_, ?_, ?_, ?_⟩
    · simp only [runLoop]
      rw [should_continue_concat]
      simp [assistantTurn, hc, hcname]
    · simp [countRole_cons, countRole, assistantTurn]
    · simp [countRole_cons, countRole, assistantTurn]
    · exact ⟨assistantTurn (model k msgs), rfl, rfl, c, hc, hcname⟩
  | succ M ih =>
    intro k fuel d msgs hfuel h1 h2
    obtain ⟨f, rfl⟩ : ∃ f, fuel = f + 1 := ⟨fuel - 1, by omega⟩
    obtain ⟨c0, hc0, hname0⟩ := h1 0 msgs (Nat.succ_pos M)
    rw [Nat.add_zero] at hc0
    set A := assistantTurn (model k msgs) with hA
    set T : Turn := { role := .tool, content := toolImpl c0.name c0.args,
                      tool_calls := [], tool_call_id := some c0.id } with hT
    have hstep : runLoop model (fun n => some (toolImpl n)) (f + 1) k d msgs =
        runLoop model (fun n => some (toolImpl n)) f (k + 1) (d + 1)
          ((msgs ++ [A]) ++ [T]) := by
      simp only [runLoop]
      rw [should_continue_concat]
      simp only [hA, assistantTurn, hc0]
      rw [if_neg hname0]
      rw [tool_node_concat]
      simp [dispatchCalls, hc0, hT, assistantTurn]
    have h1' : ∀ i ms, i < M →
        ∃ c, (model (k + 1 + i) ms).tool_calls = [c] ∧ c.name ≠ "Done" := by
      intro i ms hi
      have := h1 (i + 1) ms (by omega)
      rwa [show k + (i + 1) = k + 1 + i by omega] at this
    have h2' : ∀ ms, ∃ c, (model (k + 1 + M) ms).tool_calls = [c] ∧
        c.name = "Done" := by
      intro ms
      have := h2 ms
      rwa [show k + (M + 1) = k + 1 + M by omega] at this
    obtain ⟨app', hrun', ha', ht', dturn, hlast', hrole', hcalls'⟩ :=
      ih (k + 1) f (d + 1) ((msgs ++ [A]) ++ [T]) (by omega) h1' h2'
    refine ⟨A :: T :: app', ?_, ?_, ?_, ?_⟩
    · rw [hstep, hrun']
      simp only [Except.ok.injEq, LoopResult.done.injEq]
      refine ⟨by simp, by omega⟩
    · rw [countRole_cons, countRole_cons, ha']
      simp only [hA, hT, assistantTurn]
      simp
      omega
    · rw [countRole_cons, countRole_cons, ht']
      simp only [hA, hT, assistantTurn]
      simp
      omega
    · cases app' with
      | nil => simp at hlast'
      | cons x xs =>
        rw [List.getLast?_cons_cons]
        exact ⟨dturn, by rw [List.getLast?_cons_cons]; exact hlast',
               hrole', hcalls'⟩

/-- Claim C1: with a scripted model stub that issues exactly one tool
call per turn and selects `Done` on iteration `N` (1-based), the loop
terminates with exactly `N - 1` tool dispatches, appends exactly `N`
assistant turns and `N - 1` tool-result turns, and the `Done` assistant
turn is last — its tool result is never produced. -/
theorem loop_done_on_iteration_N (model : ModelStub)
    (toolImpl : String → String → String) (N fuel : Nat) (msgs : List Turn)
    (hN : 1 ≤ N) (hfuel : N ≤ fuel)
    (h1 : ∀ i ms, i + 1 < N → ∃ c, (model i ms).tool_calls = [c] ∧
      c.name ≠ "Done")
    (h2 : ∀ ms, ∃ c, (model (N - 1) ms).tool_calls = [c] ∧ c.name = "Done") :
    ∃ app, runLoop model (fun n => some (toolImpl n)) fuel 0 0 msgs =
        .ok (.done (msgs ++ app) (N - 1)) ∧
      countRole .assistant app = N ∧ countRole .tool app = N - 1 ∧
      ∃ dturn, app.getLast? = some dturn ∧ dturn.role = .assistant ∧
        ∃ c, dturn.tool_calls = [c] ∧ c.name = "Done" := by
  obtain ⟨M, rfl⟩ : ∃ M, N = M + 1 := ⟨N - 1, by omega⟩
  have h1' : ∀ i ms, i < M → ∃ c, (model (0 + i) ms).tool_calls = [c] ∧
      c.name ≠ "Done" := by
    intro i ms hi
    simpa using h1 i ms (by omega)
  have h2' : ∀ ms, ∃ c, (model (0 + M) ms).tool_calls = [c] ∧
      c.name = "Done" := by
    intro ms
    simpa using h2 ms
  simpa using runLoop_scripted_done model toolImpl M 0 fuel 0 msgs
    (by omega) h1' h2'

/-- Witness for C1: a two-iteration script (one `write_email` call, then
`Done`). -/
theorem loop_done_on_iteration_N_witness :
    ∃ app, runLoop
        (fun i _ => if i = 0 then ⟨"step", [⟨"write_email", "a", "id1"⟩]⟩
                    else ⟨"fin", [⟨"Done", "", "id2"⟩]⟩)
        (fun n => some (fun a => ((fun _ _ => "sent") : String → String → String) n a))
        2 0 0 [] =
        .ok (.done ([] ++ app) 1) ∧
      countRole .assistant app = 2 ∧ countRole .tool app = 1 ∧
      ∃ dturn, app.getLast? = some dturn ∧ dturn.role = .assistant ∧
        ∃ c, dturn.tool_calls = [c] ∧ c.name = "Done" := by
  exact loop_done_on_iteration_N
    (fun i _ => if i = 0 then ⟨"step", [⟨"write_email", "a", "id1"⟩]⟩
                else ⟨"fin", [⟨"Done", "", "id2"⟩]⟩)
    (fun _ _ => "sent") 2 2 [] (by omega) (by omega)
    (fun i ms hi => ⟨⟨"write_email", "a", "id1"⟩, by
      have : i = 0 := by omega
      simp [this], by decide⟩)
    (fun ms => ⟨⟨"Done", "", "id2"⟩, by simp, rfl⟩)

/-- Claim C7: the loop has no iteration cap.  With a model stub that
never selects `Done` (and a tool provider resolving every name), every
fuel-bounded run is still going after consuming all its fuel, having
produced one assistant turn per iteration — so for every bound `N` the
run with fuel `N + 1` performs more than `N` iterations, and no finite
fuel makes the loop return. -/
theorem loop_never_done_unbounded (model : ModelStub)
    (toolImpl : String → String → String)
    (h : ∀ i ms, ∃ c, (model i ms).tool_calls = [c] ∧ c.name ≠ "Done") :
    ∀ fuel i d msgs, ∃ app,
      runLoop model (fun n => some (toolImpl n)) fuel i d msgs =
        .ok (.outOfFuel (msgs ++ app) (d + fuel)) ∧
      countRole .assistant app = fuel := by
  intro fuel
  induction fuel with
  | zero =>
    intro i d msgs
    exact ⟨[], by simp [runLoop], by simp [countRole]⟩
  | succ f ih =>
    intro i d msgs
    obtain ⟨c0, hc0, hname0⟩ := h i msgs
    set A := assistantTurn (model i msgs) with hA
    set T : Turn := { role := .tool, content := toolImpl c0.name c0.args,
                      tool_calls := [], tool_call_id := some c0.id } with hT
    have hstep : runLoop model (fun n => some (toolImpl n)) (f + 1) i d msgs =
        runLoop model (fun n => some (toolImpl n)) f (i + 1) (d + 1)
          ((msgs ++ [A]) ++ [T]) := by
      simp only [runLoop]
      rw [should_continue_concat]
      simp only [hA, assistantTurn, hc0]
      rw [if_neg hname0]
      rw [tool_node_concat]
      simp [dispatchCalls, hc0, hT, assistantTurn]
    obtain ⟨app', hrun', ha'⟩ := ih (i + 1) (d + 1) ((msgs ++ [A]) ++ [T])
    refine ⟨A :: T :: app', ?_, ?_⟩
    · rw [hstep, hrun']
      simp only [Except.ok.injEq, LoopResult.outOfFuel.injEq]
      refine ⟨by simp, by omega⟩
    · rw [countRole_cons, countRole_cons, ha']
      simp only [hA, hT, assistantTurn]
      simp
      omega

/-- Witness for C7: a stub always calling `check_calendar_availability`
runs out of any fuel it is given, here fuel 3. -/
theorem loop_never_done_unbounded_witness :
    ∃ app, runLoop (fun _ _ => ⟨"again", [⟨"check_calendar_availability", "Tue", "i"⟩]⟩)
        (fun n => some (fun a => ((fun _ _ => "free") : String → String → String) n a))
        3 0 0 [] =
        .ok (.outOfFuel ([] ++ app) (0 + 3)) ∧
      countRole .assistant app = 3 := by
  exact loop_never_done_unbounded
    (fun _ _ => ⟨"again", [⟨"check_calendar_availability", "Tue", "i"⟩]⟩)
    (fun _ _ => "free")
    (fun i ms => ⟨⟨"check_calendar_availability", "Tue", "i"⟩, rfl, by decide⟩)
    3 0 0 []

/-! ### Tool-call / tool-result pairing -/

/-- The ids offered by an assistant turn's tool calls, as
`tool_call_id` values. -/
def callIds (a : Turn) : List (Option String) :=
  a.tool_calls.map (fun c => some c.id)

/-- `toolPairing msgs la` checks, walking the history with `la` the
nearest assistant turn seen so far, that every tool-role turn's
`tool_call_id` is the id of a ToolCall carried by the nearest preceding
assistant turn. -/
def toolPairing : List Turn → Option Turn → Bool
  | [], _ => true
  | t :: rest, lastA =>
    match t.role with
    | .assistant => toolPairing rest (some t)
    | .tool =>
      (match lastA with
       | some a => decide (t.tool_call_id ∈ callIds a)
       | none => false) && toolPairing rest lastA
    | _ => toolPairing rest lastA

/-- The nearest assistant turn at the end of a history, starting from a
given one. -/
def lastAssistant : List Turn → Option Turn → Option Turn
  | [], la => la
  | t :: rest, la =>
    lastAssistant rest (if t.role = .assistant then some t else la)

theorem lastAssistant_append (xs ys : List Turn) (la : Option Turn) :
    lastAssistant (xs ++ ys) la = lastAssistant ys (lastAssistant xs la) := by
  induction xs generalizing la with
  | nil => rfl
  | cons t xs ih => simp [lastAssistant, ih]

theorem toolPairing_append (xs ys : List Turn) (la : Option Turn) :
    toolPairing (xs ++ ys) la =
      (toolPairing xs la && toolPairing ys (lastAssistant xs la)) := by
  induction xs generalizing la with
  | nil => simp [toolPairing, lastAssistant]
  | cons t xs ih =>
    cases hrole : t.role <;>
      simp [toolPairing, lastAssistant, hrole, ih, Bool.and_assoc]

/-- A successful dispatch produces only tool-role turns whose
`tool_call_id` is one of the dispatched calls' ids. -/
theorem dispatchCalls_results (tools : ToolMap) :
    ∀ (calls : List ToolCall) (results : List Turn),
      dispatchCalls tools calls = .ok results →
      ∀ t ∈ results, t.role = .tool ∧
        t.tool_call_id ∈ calls.map (fun c => some c.id) := by
  intro calls
  induction calls with
  | nil =>
    intro results h t ht
    simp only [dispatchCalls, Except.ok.injEq] at h
    subst h
    simp at ht
  | cons c0 rest ih =>
    intro results h t ht
    simp only [dispatchCalls] at h
    cases h0 : tools c0.name with
    | none => rw [h0] at h; exact absurd h (by simp)
    | some f =>
      rw [h0] at h
      cases hr : dispatchCalls tools rest with
      | error e => rw [hr] at h; exact absurd h (by simp)
      | ok ts =>
        rw [hr] at h
        simp only [Except.ok.injEq] at h
        subst h
        rcases List.mem_cons.mp ht with rfl | hmem
        · exact ⟨rfl, by simp⟩
        · obtain ⟨hrole, hid⟩ := ih ts hr t hmem
          exact ⟨hrole, by
            simp only [List.map_cons, List.mem_cons]
            exact Or.inr hid⟩

theorem toolPairing_toolResults (a : Turn) (rs : List Turn)
    (h : ∀ t ∈ rs, t.role = .tool ∧ t.tool_call_id ∈ callIds a) :
    toolPairing rs (some a) = true := by
  induction rs with
  | nil => rfl
  | cons t ts ih =>
    obtain ⟨hrole, hid⟩ := h t (List.mem_cons_self t ts)
    have hts := ih (fun x hx => h x (List.mem_cons_of_mem _ hx))
    simp [toolPairing, hrole, hid, hts]

/-- Claim C6: the response loop preserves tool-call/result pairing in
every reachable history — the final messages of any outcome (normal
return, fuel exhaustion, or a fatal error's carried state) pair every
tool-role turn's `tool_call_id` with an id of the nearest preceding
assistant turn's tool calls; with one call per turn that is the turn's
sole ToolCall. -/
theorem loop_tool_result_pairing (model : ModelStub) (tools : ToolMap)
    (fuel i d : Nat) (msgs : List Turn) (la : Option Turn)
    (h : toolPairing msgs la = true) :
    toolPairing (resultMessages (runLoop model tools fuel i d msgs)) la = true := by
  induction fuel generalizing i d msgs la with
  | zero => simpa [runLoop, resultMessages] using h
  | succ f ih =>
    set A := assistantTurn (model i msgs) with hA
    have hroleA : A.role = .assistant := rfl
    have h1 : toolPairing (msgs ++ [A]) la = true := by
      rw [toolPairing_append]
      simp [h, toolPairing, hroleA]
    simp only [runLoop]
    rw [← hA]
    cases hsc : should_continue (msgs ++ [A]) with
    | none => simpa [resultMessages] using h1
    | some r =>
      cases r with
      | done => simpa [resultMessages] using h1
      | action =>
        cases htn : tool_node tools (msgs ++ [A]) with
        | error e => simpa [resultMessages] using h1
        | ok results =>
          have hdc : dispatchCalls tools A.tool_calls = .ok results := by
            rwa [tool_node_concat] at htn
          have hlaA : lastAssistant (msgs ++ [A]) la = some A := by
            rw [lastAssistant_append]
            simp [lastAssistant, hroleA]
          have h2 : toolPairing ((msgs ++ [A]) ++ results) la = true := by
            rw [toolPairing_append, h1, hlaA]
            simp only [Bool.true_and]
            exact toolPairing_toolResults A results
              (dispatchCalls_results tools A.tool_calls results hdc)
          exact ih (i + 1) (d + results.length) ((msgs ++ [A]) ++ results) la h2

/-- Witness for C6: a scripted two-iteration run starting from the empty
history. -/
theorem loop_tool_result_pairing_witness :
    toolPairing (resultMessages (runLoop
      (fun i _ => if i = 0 then ⟨"s", [⟨"write_email", "a", "id1"⟩]⟩
                  else ⟨"f", [⟨"Done", "", "id2"⟩]⟩)
      (fun n => some (fun a => n ++ a)) 5 0 0 [])) none = true := by
  exact loop_tool_result_pairing
    (fun i _ => if i = 0 then ⟨"s", [⟨"write_email", "a", "id1"⟩]⟩
                else ⟨"f", [⟨"Done", "", "id2"⟩]⟩)
    (fun n => some (fun a => n ++ a)) 5 0 0 [] none rfl

/-! ### Append-only state mutation -/

/-- Whatever the loop does, the input history is a prefix of the
messages it leaves behind, in every outcome. -/
theorem runLoop_messages_extend (model : ModelStub) (tools : ToolMap) :
    ∀ (fuel i d : Nat) (msgs : List Turn),
      ∃ app, resultMessages (runLoop model tools fuel i d msgs) = msgs ++ app := by
  intro fuel
  induction fuel with
  | zero =>
    intro i d msgs
    exact ⟨[], by simp [runLoop, resultMessages]⟩
  | succ f ih =>
    intro i d msgs
    set A := assistantTurn (model i msgs) with hA
    simp only [runLoop]
    rw [← hA]
    cases hsc : should_continue (msgs ++ [A]) with
    | none => exact ⟨[A], by simp [resultMessages]⟩
    | some r =>
      cases r with
      | done => exact ⟨[A], by simp [resultMessages]⟩
      | action =>
        cases htn : tool_node tools (msgs ++ [A]) with
        | error e => exact ⟨[A], by simp [resultMessages]⟩
        | ok results =>
          obtain ⟨app', happ'⟩ := ih (i + 1) (d + results.length) ((msgs ++ [A]) ++ results)
          exact ⟨[A] ++ results ++ app', by rw [happ']; simp⟩

/-- Claim C9: every core operation only appends to `messages` — the
triage router's successful outcomes extend the history and record the
classifier's decision, every loop outcome extends its input history —
and the classification is set once: any terminal outcome of the overall
workflow carries exactly the classification recorded at triage, which
the response loop never touches. -/
theorem state_mutation_append_only :
    (∀ (classify : EmailInput → RouterResult) (renderEmail : EmailInput → String)
       (state : AgentState) (g : Goto) (s' : AgentState),
       triage_router classify renderEmail state = .ok (g, s') →
       (∃ app, s'.messages = state.messages ++ app) ∧
       s'.classification_decision =
         some (classify state.email_input).classification) ∧
    (∀ (model : ModelStub) (tools : ToolMap) (fuel i d : Nat) (msgs : List Turn),
       ∃ app, resultMessages (runLoop model tools fuel i d msgs) = msgs ++ app) ∧
    (∀ (classify : EmailInput → RouterResult) (renderEmail : EmailInput → String)
       (model : ModelStub) (tools : ToolMap) (fuel : Nat) (email : EmailInput)
       (s : AgentState) (dsp : Nat),
       email_assistant classify renderEmail model tools fuel email =
           .ok (.finished s dsp) ∨
       email_assistant classify renderEmail model tools fuel email =
           .ok (.stillRunning s dsp) →
       s.classification_decision = some (classify email).classification) := by
  refine ⟨?_, ?_, ?_⟩
  · intro classify renderEmail state g s' h
    obtain ⟨hcl, -, happ⟩ := triage_router_ok classify renderEmail state g s' h
    exact ⟨happ, hcl⟩
  · exact fun model tools fuel i d msgs =>
      runLoop_messages_extend model tools fuel i d msgs
  · intro classify renderEmail model tools fuel email s dsp h
    simp only [email_assistant] at h
    cases htr : triage_router classify renderEmail { email_input := email } with
    | error e =>
      rw [htr] at h
      rcases h with h | h <;> exact absurd h (by simp)
    | ok p =>
      obtain ⟨g, s0⟩ := p
      have hcl := (triage_router_ok classify renderEmail
        { email_input := email } g s0 htr).1
      rw [htr] at h
      cases g with
      | terminal =>
        simp only [] at h
        rcases h with h | h
        · simp only [Except.ok.injEq, RunOutcome.finished.injEq] at h
          obtain ⟨rfl, -⟩ := h
          exact hcl
        · exact absurd h (by simp)
      | response_agent =>
        simp only [] at h
        cases hrl : runLoop model tools fuel 0 0 s0.messages with
        | error e =>
          rw [hrl] at h
          simp only [] at h
          rcases h with h | h <;> exact absurd h (by simp)
        | ok lr =>
          rw [hrl] at h
          cases lr with
          | done msgs d =>
            simp only [] at h
            rcases h with h | h
            · simp only [Except.ok.injEq, RunOutcome.finished.injEq] at h
              obtain ⟨rfl, -⟩ := h
              exact hcl
            · exact absurd h (by simp)
          | outOfFuel msgs d =>
            simp only [] at h
            rcases h with h | h
            · exact absurd h (by simp)
            · simp only [Except.ok.injEq, RunOutcome.stillRunning.injEq] at h
              obtain ⟨rfl, -⟩ := h
              exact hcl

/-- Witness for C9: the loop-extension conjunct at a concrete run, and
the classification conjunct at a concrete `ignore` run of the overall
workflow. -/
theorem state_mutation_append_only_witness :
    (∃ app, resultMessages (runLoop (fun _ _ => ⟨"t", [⟨"Done", "", "i"⟩]⟩)
      (fun _ => none) 3 0 0 []) = [] ++ app) ∧
    (AgentState.mk ⟨"a@x.com", "b@x.com", "Meet?", "body"⟩ (some "ignore")
      []).classification_decision = some "ignore" := by
  refine ⟨state_mutation_append_only.2.1 (fun _ _ => ⟨"t", [⟨"Done", "", "i"⟩]⟩)
    (fun _ => none) 3 0 0 [], ?_⟩
  exact state_mutation_append_only.2.2 (fun _ => ⟨"why", "ignore"⟩) (fun _ => "MD")
    (fun _ _ => ⟨"t", []⟩) (fun _ => none) 3 ⟨"a@x.com", "b@x.com", "Meet?", "body"⟩
    (AgentState.mk ⟨"a@x.com", "b@x.com", "Meet?", "body"⟩ (some "ignore") []) 0
    (Or.inl (by rfl))

end EmailAgent
